import Mathlib

/-!
Prodigy: note-series windowing, accuracy metric, training driver, prediction export.

A shallow embedding of `src/main.cpp`.

Conventions of the embedding.

* Armadillo's `mat` and `cube` are dense, column-major containers.  They are
  modelled with their dimensions and their linear storage `mem`; element
  `(r, c)` of a matrix lives at `r + c * n_rows`, element `(r, c, s)` of a cube
  at `r + c * n_rows + s * (n_rows * n_cols)`.
* `double` values are modelled by rationals (every finite double is one).
  Comparisons, `std::round` and the conversion to `int` are exact on them.  The
  rounded operations of the program, the conversions, the quotient and the
  product on line 100, round to the nearest double, ties to even (`toDouble`);
  `0.0 / 0.0` (not a number) is modelled by `none`.
* `.at(...)` is Armadillo's unchecked access.  An access whose linear index is
  outside the storage has no defined behaviour; the model stops there with
  `Fault.undefinedBehaviour`.  `operator()` is the bounds-checked access and
  throws `std::logic_error`, modelled by `Fault.logicError`.
* Lengths, counts and the loop counters are natural numbers (they are assumed
  to fit the machine types); the one unsigned subtraction that can wrap,
  `n_rows - sequence_length`, wraps explicitly.  A window length is a count: the
  embedding does not cover negative values of the `int` parameters.
* The network (`RNN`), the optimiser and the CSV reader and writer are
  external: they appear as parameters.
-/

namespace Prodigy

/-- Ways a run can stop without a result. `dataFormatError` is the error the
design documents name for malformed input; the program itself has no statement
that raises it. -/
inductive Fault where
  | undefinedBehaviour
  | logicError
  | dataFormatError
  deriving DecidableEq, Repr

deriving instance DecidableEq for Except

/-- Armadillo `mat`: dimensions and column-major storage. -/
structure Mat where
  n_rows : Nat
  n_cols : Nat
  mem : List ℚ
  deriving DecidableEq

/-- Armadillo `cube`: dimensions and slice-major, then column-major storage. -/
structure Cube where
  n_rows : Nat
  n_cols : Nat
  n_slices : Nat
  mem : List ℚ
  deriving DecidableEq

/-- The storage has exactly one cell per element. -/
def Mat.WF (m : Mat) : Prop := m.mem.length = m.n_rows * m.n_cols

/-- The storage has exactly one cell per element. -/
def Cube.WF (q : Cube) : Prop := q.mem.length = q.n_rows * q.n_cols * q.n_slices

instance (m : Mat) : Decidable m.WF := by unfold Mat.WF; infer_instance

instance (q : Cube) : Decidable q.WF := by unfold Cube.WF; infer_instance

/-- A matrix of the given size, `mat(r, c, fill::zeros)`; also used for
`mat(r, c)`, whose cells the program overwrites before any use. -/
def Mat.create (r c : Nat) : Mat := ⟨r, c, List.replicate (r * c) 0⟩

/-- A cube of the given size, `cube(r, c, s)`.  Its cells start at zero, the
default the design documents name (Armadillo zero-fills since 10.5). -/
def Cube.create (r c s : Nat) : Cube := ⟨r, c, s, List.replicate (r * c * s) 0⟩

/-- A series as an `N x 1` matrix: one row per time step, a single column. -/
def Mat.colVec (xs : List ℚ) : Mat := ⟨xs.length, 1, xs⟩

/-- A series as a `1 x M` matrix: one column per point, a single row. -/
def Mat.rowVec (xs : List ℚ) : Mat := ⟨1, xs.length, xs⟩

/-- Linear index of element `(r, c)`. -/
def Mat.index (m : Mat) (r c : Nat) : Nat := r + c * m.n_rows

/-- Linear index of element `(r, c, s)`. -/
def Cube.index (q : Cube) (r c s : Nat) : Nat := r + c * q.n_rows + s * (q.n_rows * q.n_cols)

/-- The value stored for element `(r, c)` (zero outside the storage); used to
state results, never to run the program. -/
def Mat.entry (m : Mat) (r c : Nat) : ℚ := (m.mem[m.index r c]?).getD 0

/-- The value stored for element `(r, c, s)` (zero outside the storage); used
to state results, never to run the program. -/
def Cube.entry (q : Cube) (r c s : Nat) : ℚ := (q.mem[q.index r c s]?).getD 0

/-- Unchecked read `m.at(r, c)`. -/
def Mat.readAt (m : Mat) (r c : Nat) : Except Fault ℚ :=
  match m.mem[m.index r c]? with
  | some v => .ok v
  | none => .error .undefinedBehaviour

/-- Unchecked write `m.at(r, c) = v`. -/
def Mat.writeAt (m : Mat) (r c : Nat) (v : ℚ) : Except Fault Mat :=
  if m.index r c < m.mem.length then .ok { m with mem := m.mem.set (m.index r c) v }
  else .error .undefinedBehaviour

/-- Checked write `m(r, c) = v`. -/
def Mat.writeChecked (m : Mat) (r c : Nat) (v : ℚ) : Except Fault Mat :=
  if r < m.n_rows ∧ c < m.n_cols then m.writeAt r c v else .error .logicError

/-- Unchecked read `q.at(r, c, s)`. -/
def Cube.readAt (q : Cube) (r c s : Nat) : Except Fault ℚ :=
  match q.mem[q.index r c s]? with
  | some v => .ok v
  | none => .error .undefinedBehaviour

/-- Unchecked write `q.at(r, c, s) = v`. -/
def Cube.writeAt (q : Cube) (r c s : Nat) (v : ℚ) : Except Fault Cube :=
  if q.index r c s < q.mem.length then .ok { q with mem := q.mem.set (q.index r c s) v }
  else .error .undefinedBehaviour

/-- Checked read `q(r, c, s)`. -/
def Cube.readChecked (q : Cube) (r c s : Nat) : Except Fault ℚ :=
  if r < q.n_rows ∧ c < q.n_cols ∧ s < q.n_slices then q.readAt r c s else .error .logicError

/-- Checked write `q(r, c, s) = v`. -/
def Cube.writeChecked (q : Cube) (r c s : Nat) (v : ℚ) : Except Fault Cube :=
  if r < q.n_rows ∧ c < q.n_cols ∧ s < q.n_slices then q.writeAt r c s v else .error .logicError

/-- The loop `for (i = lo; i < hi; i++) body`, threading the mutated state and
stopping at the first fault. -/
def forLoop {σ : Type} (lo hi : Nat) (body : σ → Nat → Except Fault σ) (init : σ) :
    Except Fault σ :=
  (List.range' lo (hi - lo)).foldlM body init

/-- Conversion `double -> int`: truncation toward zero. -/
def truncToInt (v : ℚ) : Int := Int.tdiv v.num v.den

/-- The function `std::round`: nearest integer, halves away from zero. -/
def stdRound (v : ℚ) : Int := if 0 ≤ v then ⌊v + 1 / 2⌋ else -⌊-v + 1 / 2⌋

/-! ## `getTrainX` (lines 53-66) -/

/-- The local `num_sequences` of `getTrainX`: `num_notes / sequence_length + 1`. -/
def num_sequences (num_notes sequence_length : Nat) : Nat := num_notes / sequence_length + 1

/-- One execution of the assignment on line 62: the element `(row, col, slice)`
of `trainX` that is written and the row `src` of `tempDataset` (column 0) that
is read. -/
structure Access where
  row : Nat
  col : Nat
  slice : Nat
  src : Nat
  deriving DecidableEq, Repr

/-- The assignments `trainX.at(1,i,j) = tempDataset.at(i+j,0)` that the two
nested loops of `getTrainX` perform, in program order. -/
def getTrainXAccesses (num_notes sequence_length : Nat) : List Access :=
  (List.range (num_sequences num_notes sequence_length)).flatMap fun i =>
    (List.range sequence_length).map fun j => ⟨1, i, j, i + j⟩

/-- The function `getTrainX`. A zero `sequence_length` is an integer division
by zero. -/
def getTrainX (tempDataset : Mat) (sequence_length : Nat) : Except Fault Cube :=
  if sequence_length = 0 then .error .undefinedBehaviour
  else
    let num_notes := tempDataset.n_rows
    let trainX := Cube.create 1 (num_sequences num_notes sequence_length) sequence_length
    (getTrainXAccesses num_notes sequence_length).foldlM
      (fun trainX a => do
        let v ← tempDataset.readAt a.src 0
        trainX.writeAt a.row a.col a.slice v)
      trainX

/-! ## `getCategory` (lines 69-78) -/

/-- The row count `tempDataset.n_rows - sequence_length`, an unsigned 64-bit
subtraction. -/
def targetRows (n_rows sequence_length : Nat) : Nat :=
  if sequence_length ≤ n_rows then n_rows - sequence_length
  else n_rows + 2 ^ 64 - sequence_length

/-- The body of the loop of `getCategory` (lines 74-75).  A negative `note`
converts to an unsigned column far beyond any storage. -/
def getCategoryStep (tempDataset : Mat) (sequence_length : Nat) (trainY : Mat) (i : Nat) :
    Except Fault Mat := do
  let v ← tempDataset.readAt i 0
  let note := truncToInt v
  if note < 0 then .error .undefinedBehaviour
  else trainY.writeAt (i - sequence_length) note.toNat 1

/-- The function `getCategory`.  For `n_rows < sequence_length` the wrapped row
count is a size no allocation can serve; allocation failure is not modelled,
and every statement about `getCategory` assumes `sequence_length <= n_rows`. -/
def getCategory (tempDataset : Mat) (size_notes : Nat) (sequence_length : Nat) :
    Except Fault Mat :=
  let trainY := Mat.create (targetRows tempDataset.n_rows sequence_length) size_notes
  forLoop sequence_length tempDataset.n_rows (getCategoryStep tempDataset sequence_length) trainY

/-! ## `main`, the derivation of the class count (line 205) -/

/-- The expression `max(tempDataset.row(0))`; Armadillo raises a logic error
when there is no row 0 or it has no element. -/
def maxRow0 (tempDataset : Mat) : Except Fault ℚ :=
  match (List.range tempDataset.n_cols).map (fun c => tempDataset.entry 0 c) with
  | [] => .error .logicError
  | x :: xs => if tempDataset.n_rows = 0 then .error .logicError else .ok (xs.foldl max x)

/-- The constant `size_notes` of `main`: `max(tempDataset.row(0))` converted to `int`. -/
def mainSizeNotes (tempDataset : Mat) : Except Fault Int := do
  let m ← maxRow0 tempDataset
  pure (truncToInt m)

/-! ## `accuracy` (lines 87-101) -/

/-- The power `2 ^ k` for an integer exponent. -/
def pow2 (k : Int) : ℚ := if 0 ≤ k then (2 : ℚ) ^ k.toNat else 1 / (2 : ℚ) ^ (-k).toNat

/-- The binary exponent of a positive value `x`: the `e` with `2 ^ e <= x < 2 ^ (e + 1)`. -/
def binExp (x : ℚ) : Int :=
  let e0 : Int := (Nat.log2 x.num.toNat : Int) - (Nat.log2 x.den : Int)
  if pow2 e0 ≤ x then e0 else e0 - 1

/-- Nearest integer, ties to the even one. -/
def roundHalfEven (x : ℚ) : Int :=
  let f := ⌊x⌋
  let r := x - f
  if r < 1 / 2 then f else if 1 / 2 < r then f + 1 else if f % 2 = 0 then f else f + 1

/-- Rounding of a non-negative value to the nearest `double` (53 significant
bits, ties to even).  The values rounded in `accuracy` are counts, their
quotient in `[0, 1]` and a percentage, so neither overflow nor the subnormal
range arises. -/
def toDouble (x : ℚ) : ℚ :=
  if x ≤ 0 then 0
  else
    let ulp := pow2 (binExp x - 52)
    (roundHalfEven (x / ulp) : ℚ) * ulp

/-- The body of `accuracy`, embedded under the typing its accesses require:
both arguments are indexed with three indices, so both are cubes (the
declaration names the first one `arma::mat&`, a type without `n_slices` and
without a three-index access; the body does not type-check against it).  The
prediction is read with the checked `operator()`, the ground truth with the
unchecked `.at`.  For a tensor without slices `n_slices - 1` wraps around and
the checked read throws; the truncated subtraction gives index 0, which the
check rejects just the same.  The result is
`(double) success / (double) real.n_cols * 100.0` in double arithmetic, `none`
for `0.0 / 0.0`. -/
def accuracy (predLabels : Cube) (real : Cube) : Except Fault (Option ℚ) := do
  let success ← forLoop 0 real.n_cols
    (fun (success : Nat) j => do
      let p ← predLabels.readChecked 0 j (predLabels.n_slices - 1)
      let r ← real.readAt 0 j 0
      pure (if p = (stdRound r : ℚ) then success + 1 else success))
    0
  pure (if real.n_cols = 0 then none
        else some (toDouble
          (toDouble (toDouble (success : ℚ) / toDouble (real.n_cols : ℚ)) * 100)))

/-! ## `trainModel` (lines 103-159) -/

/-- The constant `ITERATIONS_PER_CYCLE`. -/
def ITERATIONS_PER_CYCLE : Nat := 10000

/-- The constant `CYCLES`, documented in the source as the number of cycles. -/
def CYCLES : Nat := 50

/-- The constant `STEP_SIZE`, the double written `5e-20`. -/
def STEP_SIZE : ℚ := toDouble (5 / 10 ^ 20)

/-- The constant `BATCH_SIZE`. -/
def BATCH_SIZE : Nat := 5

/-- The optimiser `SGD<AdamUpdate>`: its settings, the reset flag and its
internal moment estimates (`state`, external). -/
structure Optimizer (O : Type) where
  stepSize : ℚ
  batchSize : Nat
  maxIterations : Nat
  tolerance : ℚ
  shuffle : Bool
  resetPolicy : Bool
  state : O

/-- What the driver holds while it runs: the network, the optimiser and the
lines printed so far (cycle index and accuracy). -/
structure TrainState (M O : Type) where
  model : M
  optimizer : Optimizer O
  log : List (Nat × Option ℚ)

/-- A matrix handed to a parameter that is indexed as a cube: one slice. -/
def Mat.asCube (m : Mat) : Cube := ⟨m.n_rows, m.n_cols, 1, m.mem⟩

/-- One pass through the body of the loop of `trainModel` (lines 145-156).
`train` is `model.Train`, `predict` is `model.Predict`; `accuracy` receives the
prediction and the target matrix `trainY`, which it indexes as a cube. -/
def trainCycle {M O : Type} (train : M → Cube → Mat → Optimizer O → M × Optimizer O)
    (predict : M → Cube → Cube) (trainX : Cube) (trainY : Mat)
    (st : TrainState M O) (i : Nat) : Except Fault (TrainState M O) := do
  let (model, optimizer) := train st.model trainX trainY st.optimizer
  let optimizer := { optimizer with resetPolicy := false }
  let predOut := predict model trainX
  let trainAccuracy ← accuracy predOut trainY.asCube
  pure ⟨model, optimizer, st.log ++ [(i, trainAccuracy)]⟩

/-- The function `trainModel`, with the constant `CYCLES` as the parameter
`cycles`: the loop is `for (int i = 0; i <= CYCLES; i++)`. -/
def trainModelWith {M O : Type} (cycles : Nat)
    (train : M → Cube → Mat → Optimizer O → M × Optimizer O)
    (predict : M → Cube → Cube) (adam : O) (model : M) (trainX : Cube) (trainY : Mat) :
    Except Fault (TrainState M O) :=
  let optimizer : Optimizer O :=
    ⟨STEP_SIZE, BATCH_SIZE, ITERATIONS_PER_CYCLE, toDouble (1 / 10 ^ 8), false, true, adam⟩
  forLoop 0 (cycles + 1) (trainCycle train predict trainX trainY) ⟨model, optimizer, []⟩

/-- The function `trainModel` as compiled, `CYCLES = 50`. -/
def trainModel {M O : Type} (train : M → Cube → Mat → Optimizer O → M × Optimizer O)
    (predict : M → Cube → Cube) (adam : O) (model : M) (trainX : Cube) (trainY : Mat) :
    Except Fault (TrainState M O) :=
  trainModelWith CYCLES train predict adam model trainX trainY

/-! ## `predictClass` (lines 165-193) -/

/-- The inference tensor `test` of `predictClass` (lines 172-176): only time
step 0 of each sequence is filled. -/
def buildTest (tempDataset : Mat) (rho : Nat) : Except Fault Cube :=
  forLoop 0 tempDataset.n_cols
    (fun test i => do
      let v ← tempDataset.readAt 0 i
      test.writeChecked 0 i 0 v)
    (Cube.create 1 tempDataset.n_cols rho)

/-- The function `predictClass`: `tempDataset` is what `data::Load` delivered,
`predict` is `model.Predict`, the result is the matrix handed to `data::Save`. -/
def predictClass (predict : Cube → Cube) (tempDataset : Mat) (rho : Nat) : Except Fault Mat := do
  let test ← buildTest tempDataset rho
  let testPredOut := predict test
  forLoop 0 testPredOut.n_cols
    (fun testPred i => do
      let v ← testPredOut.readAt 0 i (testPredOut.n_slices - 1)
      testPred.writeChecked 0 i v)
    (Mat.create 1 testPredOut.n_cols)

/-- The inference tensor as the design describes it, shaped `[1, M, L]`:
sequence `i` holds `heldOut[i]` at time step 0 and zero at the other `L - 1`
time steps.  It is what `buildTest` is compared with. -/
def inferenceTensor (heldOut : List ℚ) (L : Nat) : Cube :=
  ⟨1, heldOut.length, L, heldOut ++ List.replicate (heldOut.length * (L - 1)) 0⟩

/-! ## Invariant of the loop of `getCategory` -/

/-- The state of `trainY` when the loop of `getCategory` reaches index `i`:
rows below `i - L` are one-hot, the others still zero. -/
def CategoryInv (L R C : Nat) (note : Nat → Nat) (i : Nat) (m : Mat) : Prop :=
  m.n_rows = R ∧ m.n_cols = C ∧ m.mem.length = R * C ∧
    ∀ r c, r < R → c < C →
      m.mem[r + c * R]? = some (if r + L < i ∧ c = note (r + L) then 1 else 0)

/-! ## Loops and storage: auxiliary facts -/

theorem foldlM_range'_inv {σ : Type} (body : σ → Nat → Except Fault σ) (P : Nat → σ → Prop) :
    ∀ (len lo : Nat) (init : σ), P lo init →
      (∀ i s, lo ≤ i → i < lo + len → P i s → ∃ s', body s i = .ok s' ∧ P (i + 1) s') →
      ∃ s, (List.range' lo len).foldlM body init = .ok s ∧ P (lo + len) s := by
  intro len
  induction len with
  | zero =>
    intro lo init h0 _
    exact ⟨init, rfl, by simpa using h0⟩
  | succ len ih =>
    intro lo init h0 hstep
    obtain ⟨s1, hs1, hP1⟩ := hstep lo init (le_refl _) (by omega) h0
    obtain ⟨s, hs, hP⟩ := ih (lo + 1) s1 hP1
      (fun i t hlo hhi hPi => hstep i t (by omega) (by omega) hPi)
    refine ⟨s, ?_, ?_⟩
    · rw [List.range'_succ, List.foldlM_cons, hs1]
      exact hs
    · have : lo + (len + 1) = lo + 1 + len := by omega
      rw [this]
      exact hP

theorem forLoop_inv {σ : Type} (body : σ → Nat → Except Fault σ) (P : Nat → σ → Prop)
    (lo hi : Nat) (init : σ) (hle : lo ≤ hi) (h0 : P lo init)
    (hstep : ∀ i s, lo ≤ i → i < hi → P i s → ∃ s', body s i = .ok s' ∧ P (i + 1) s') :
    ∃ s, forLoop lo hi body init = .ok s ∧ P hi s := by
  have h := foldlM_range'_inv body P (hi - lo) lo init h0
    (fun i s hlo hhi hPi => hstep i s hlo (by omega) hPi)
  have e : lo + (hi - lo) = hi := by omega
  rw [e] at h
  exact h

theorem foldlM_error_eq {σ : Type} (body : σ → Nat → Except Fault σ) (e0 : Fault)
    (hbody : ∀ s i e, body s i = .error e → e = e0) :
    ∀ (l : List Nat) (init : σ) (e : Fault), l.foldlM body init = .error e → e = e0 := by
  intro l
  induction l with
  | nil => intro init e h; cases h
  | cons a l ih =>
    intro init e h
    rw [List.foldlM_cons] at h
    cases hb : body init a with
    | error e' =>
      rw [hb] at h
      cases h
      exact hbody init a e hb
    | ok s' =>
      rw [hb] at h
      exact ih s' e h

/-- Column-major addressing stays inside the storage. -/
theorem index_lt (R C r c : Nat) (hr : r < R) (hc : c < C) : r + c * R < R * C := by
  calc r + c * R < R + c * R := by omega
    _ = (c + 1) * R := by ring
    _ ≤ C * R := Nat.mul_le_mul_right R hc
    _ = R * C := Nat.mul_comm C R

/-- Column-major addressing is injective on in-range rows. -/
theorem index_inj (R r c r' c' : Nat) (hr : r < R) (hr' : r' < R)
    (h : r + c * R = r' + c' * R) : r = r' ∧ c = c' := by
  have h1 : (r + c * R) % R = r := by
    rw [Nat.add_mul_mod_self_right, Nat.mod_eq_of_lt hr]
  have h2 : (r' + c' * R) % R = r' := by
    rw [Nat.add_mul_mod_self_right, Nat.mod_eq_of_lt hr']
  have hrr : r = r' := by rw [← h1, ← h2, h]
  subst hrr
  have hpos : 0 < R := by omega
  have hcc : c * R = c' * R := by omega
  exact ⟨rfl, Nat.eq_of_mul_eq_mul_right hpos hcc⟩

theorem truncToInt_natCast (k : Nat) : truncToInt (k : ℚ) = (k : Int) := by
  simp [truncToInt]

theorem colVec_readAt (series : List ℚ) (i : Nat) (v : ℚ) (h : series[i]? = some v) :
    (Mat.colVec series).readAt i 0 = .ok v := by
  simp [Mat.readAt, Mat.colVec, Mat.index, h]

theorem categoryInv_init (L R C : Nat) (note : Nat → Nat) :
    CategoryInv L R C note L (Mat.create R C) := by
  refine ⟨rfl, rfl, by simp [Mat.create], ?_⟩
  intro r c hr hc
  have hlt := index_lt R C r c hr hc
  simp [Mat.create, List.getElem?_replicate, hlt]

theorem categoryInv_step (series : List ℚ) (L C : Nat) (note : Nat → Nat)
    (hnote : ∀ p, L ≤ p → p < series.length →
      ∃ v, series[p]? = some v ∧ truncToInt v = (note p : Int) ∧ note p < C)
    (i : Nat) (m : Mat) (hlo : L ≤ i) (hhi : i < series.length)
    (hinv : CategoryInv L (series.length - L) C note i m) :
    ∃ m', getCategoryStep (Mat.colVec series) L m i = .ok m' ∧
      CategoryInv L (series.length - L) C note (i + 1) m' := by
  obtain ⟨hR, hC, hlen, hent⟩ := hinv
  obtain ⟨v, hv, htr, hn⟩ := hnote i hlo hhi
  have hrow : i - L < series.length - L := by omega
  have hidx := index_lt (series.length - L) C (i - L) (note i) hrow hn
  have hidx' : m.index (i - L) (note i) < m.mem.length := by
    rw [Mat.index, hR, hlen]; exact hidx
  refine ⟨{ m with mem := m.mem.set (m.index (i - L) (note i)) 1 }, ?_, ?_⟩
  · simp only [getCategoryStep, colVec_readAt series i _ hv]
    simp [Mat.writeAt, hidx', bind, Except.bind, htr]
  · refine ⟨hR, hC, by simpa using hlen, ?_⟩
    intro r c hr hc
    have hlt := index_lt (series.length - L) C r c hr hc
    simp only [Mat.index, hR, List.getElem?_set]
    by_cases hsame : i - L + note i * (series.length - L) = r + c * (series.length - L)
    · obtain ⟨h1, h2⟩ := index_inj _ _ _ _ _ hrow hr hsame
      have h3 : c = note (r + L) := by
        have hri : r + L = i := by omega
        rw [hri]; exact h2.symm
      have h4 : r + L < i + 1 := by omega
      rw [if_pos hsame, hlen, if_pos hidx, if_pos ⟨h4, h3⟩]
    · rw [if_neg hsame, hent r c hr hc]
      by_cases hri : r + L = i
      · have hcn : c ≠ note i := by
          intro hcn
          apply hsame
          have : r = i - L := by omega
          rw [this, hcn]
        simp [hri, hcn]
      · have : (r + L < i + 1) ↔ (r + L < i) := by omega
        simp [this]

theorem getCategory_spec (series : List ℚ) (L C : Nat) (note : Nat → Nat)
    (hL : L ≤ series.length)
    (hnote : ∀ p, L ≤ p → p < series.length →
      ∃ v, series[p]? = some v ∧ truncToInt v = (note p : Int) ∧ note p < C) :
    ∃ trainY, getCategory (Mat.colVec series) C L = .ok trainY ∧
      CategoryInv L (series.length - L) C note series.length trainY := by
  have hrows : targetRows series.length L = series.length - L := by
    simp [targetRows, hL]
  simp only [getCategory, Mat.colVec, hrows]
  exact forLoop_inv _ (CategoryInv L (series.length - L) C note) L series.length _ hL
    (categoryInv_init L _ C note)
    (fun i m hlo hhi hinv => categoryInv_step series L C note hnote i m hlo hhi hinv)

theorem getCategoryStep_cases (D : Mat) (L : Nat) (m : Mat) (i : Nat) :
    getCategoryStep D L m i = .error .undefinedBehaviour ∨
      ∃ v, D.readAt i 0 = .ok v ∧ 0 ≤ truncToInt v ∧
        m.index (i - L) (truncToInt v).toNat < m.mem.length ∧
        getCategoryStep D L m i =
          .ok { m with mem := m.mem.set (m.index (i - L) (truncToInt v).toNat) 1 } := by
  unfold getCategoryStep
  cases hread : D.readAt i 0 with
  | error e =>
    left
    have he : e = .undefinedBehaviour := by
      unfold Mat.readAt at hread
      split at hread <;> cases hread
      rfl
    subst he
    rfl
  | ok v =>
    by_cases hneg : truncToInt v < 0
    · left
      simp [bind, Except.bind, hneg]
    · by_cases hidx : m.index (i - L) (truncToInt v).toNat < m.mem.length
      · right
        exact ⟨v, rfl, by omega, hidx, by simp [bind, Except.bind, hneg, Mat.writeAt, hidx]⟩
      · left
        simp [bind, Except.bind, hneg, Mat.writeAt, hidx]

theorem cube_index_lt (q : Cube) (hq : q.WF) (r c s : Nat)
    (hr : r < q.n_rows) (hc : c < q.n_cols) (hs : s < q.n_slices) :
    q.index r c s < q.mem.length := by
  rw [hq, Cube.index]
  exact index_lt (q.n_rows * q.n_cols) q.n_slices _ s (index_lt _ _ r c hr hc) hs

theorem cube_readAt_eq (q : Cube) (hq : q.WF) (r c s : Nat)
    (hr : r < q.n_rows) (hc : c < q.n_cols) (hs : s < q.n_slices) :
    q.readAt r c s = .ok (q.entry r c s) := by
  have h := cube_index_lt q hq r c s hr hc hs
  simp [Cube.readAt, Cube.entry, List.getElem?_eq_getElem h]

theorem rowVec_readAt (xs : List ℚ) (i : Nat) (hi : i < xs.length) :
    (Mat.rowVec xs).readAt 0 i = .ok (xs.getD i 0) := by
  simp [Mat.readAt, Mat.rowVec, Mat.index, List.getElem?_eq_getElem hi, List.getD_eq_getElem _ _ hi]

/-- The first loop of `predictClass` builds exactly the tensor of the design:
point `i` of the series at time step 0 of sequence `i`, zero elsewhere. -/
theorem buildTest_eq (xs : List ℚ) (rho : Nat) (hrho : 1 ≤ rho) :
    buildTest (Mat.rowVec xs) rho = .ok (inferenceTensor xs rho) := by
  have hn : (Mat.rowVec xs).n_cols = xs.length := rfl
  unfold buildTest
  rw [hn]
  obtain ⟨test, hrun, h1, h2, h3, h4, h5⟩ := forLoop_inv
    (fun test i => do
      let v ← (Mat.rowVec xs).readAt 0 i
      test.writeChecked 0 i 0 v)
    (fun k (t : Cube) => t.n_rows = 1 ∧ t.n_cols = xs.length ∧ t.n_slices = rho ∧
      t.mem.length = 1 * xs.length * rho ∧
      ∀ idx, idx < 1 * xs.length * rho →
        t.mem[idx]? = some (if idx < k then xs.getD idx 0 else 0))
    0 xs.length (Cube.create 1 xs.length rho) (Nat.zero_le _)
    ⟨rfl, rfl, rfl, by simp [Cube.create], by
      intro idx hidx
      have hidx' : idx < xs.length * rho := by simpa using hidx
      simp [Cube.create, List.getElem?_replicate, hidx']⟩
    (by
      intro i t _ hi ht
      obtain ⟨h1, h2, h3, h4, h5⟩ := ht
      beta_reduce
      rw [rowVec_readAt xs i hi]
      have hwf : t.WF := by rw [Cube.WF, h4, h1, h2, h3]
      have hidx := cube_index_lt t hwf 0 i 0 (by omega) (by omega) (by omega)
      have hi0 : t.index 0 i 0 = i := by simp [Cube.index, h1]
      refine ⟨{ t with mem := t.mem.set i (xs.getD i 0) }, ?_, h1, h2, h3,
        by simpa using h4, ?_⟩
      · have hc : 0 < t.n_rows ∧ i < t.n_cols ∧ 0 < t.n_slices :=
          ⟨by omega, by omega, by omega⟩
        rw [hi0] at hidx
        simp [bind, Except.bind, Cube.writeChecked, Cube.writeAt, hc, hi0, hidx]
      · intro idx hlt
        simp only [List.getElem?_set]
        by_cases hik : i = idx
        · subst hik
          rw [hi0] at hidx
          simp [hidx]
        · rw [if_neg hik, h5 idx hlt]
          by_cases hlt' : idx < i
          · have : idx < i + 1 := by omega
            simp [hlt', this]
          · have : ¬ idx < i + 1 := by omega
            simp [hlt', this])
  rw [hrun]
  have hmem : test.mem = xs ++ List.replicate (xs.length * (rho - 1)) 0 := by
    have hlen : xs.length + xs.length * (rho - 1) = 1 * xs.length * rho := by
      obtain ⟨r, rfl⟩ : ∃ r, rho = r + 1 := ⟨rho - 1, by omega⟩
      simp only [Nat.add_sub_cancel]
      ring
    apply List.ext_getElem?
    intro idx
    by_cases hlt : idx < 1 * xs.length * rho
    · rw [h5 idx hlt]
      by_cases hx : idx < xs.length
      · simp [hx, List.getElem?_append_left hx, List.getElem?_eq_getElem hx,
          List.getD_eq_getElem _ _ hx]
      · have hge : xs.length ≤ idx := by omega
        have hrest : idx - xs.length < xs.length * (rho - 1) := by omega
        simp [hx, List.getElem?_append_right hge, List.getElem?_replicate, hrest]
    · have hl1 : test.mem.length ≤ idx := by omega
      have hl2 : (xs ++ List.replicate (xs.length * (rho - 1)) 0).length ≤ idx := by
        simp only [List.length_append, List.length_replicate]
        omega
      rw [List.getElem?_eq_none hl1, List.getElem?_eq_none hl2]
  cases test
  simp only at h1 h2 h3 hmem
  subst h1 h2 h3 hmem
  rfl

/-- The second loop of `predictClass`: one value per sequence, in order. -/
theorem exportLoop_spec (out : Cube) (hwf : out.WF) (hrows : 1 ≤ out.n_rows)
    (hsl : 1 ≤ out.n_slices) :
    ∃ testPred, forLoop 0 out.n_cols
        (fun testPred i => do
          let v ← out.readAt 0 i (out.n_slices - 1)
          testPred.writeChecked 0 i v)
        (Mat.create 1 out.n_cols) = .ok testPred ∧
      testPred.n_rows = 1 ∧ testPred.n_cols = out.n_cols ∧
      testPred.mem.length = out.n_cols ∧
      ∀ i, i < out.n_cols → testPred.mem[i]? = some (out.entry 0 i (out.n_slices - 1)) := by
  obtain ⟨tp, hrun, h1, h2, h3, h4⟩ := forLoop_inv
    (fun testPred i => do
      let v ← out.readAt 0 i (out.n_slices - 1)
      testPred.writeChecked 0 i v)
    (fun k (t : Mat) => t.n_rows = 1 ∧ t.n_cols = out.n_cols ∧ t.mem.length = out.n_cols ∧
      ∀ i, i < k → t.mem[i]? = some (out.entry 0 i (out.n_slices - 1)))
    0 out.n_cols (Mat.create 1 out.n_cols) (Nat.zero_le _)
    ⟨rfl, rfl, by simp [Mat.create], by intro i hi; omega⟩
    (by
      intro k t _ hk ht
      obtain ⟨h1, h2, h3, h4⟩ := ht
      beta_reduce
      rw [cube_readAt_eq out hwf 0 k _ (by omega) hk (by omega)]
      have hidx : t.index 0 k = k := by simp [Mat.index, h1]
      refine ⟨{ t with mem := t.mem.set k (out.entry 0 k (out.n_slices - 1)) }, ?_,
        h1, h2, by simpa using h3, ?_⟩
      · have hc : 0 < t.n_rows ∧ k < t.n_cols := ⟨by omega, by omega⟩
        have hk' : k < t.mem.length := by omega
        simp [bind, Except.bind, Mat.writeChecked, Mat.writeAt, hc, hidx, hk']
      · intro i hi
        simp only [List.getElem?_set]
        by_cases hik : k = i
        · subst hik
          simp [h3, hk]
        · rw [if_neg hik]
          exact h4 i (by omega))
  exact ⟨tp, hrun, h1, h2, h3, fun i hi => h4 i hi⟩

theorem mem_getTrainXAccesses (N L : Nat) (a : Access) :
    a ∈ getTrainXAccesses N L ↔ ∃ i j, i < N / L + 1 ∧ j < L ∧ a = ⟨1, i, j, i + j⟩ := by
  simp only [getTrainXAccesses, num_sequences, List.mem_flatMap, List.mem_map, List.mem_range]
  constructor
  · rintro ⟨i, hi, j, hj, rfl⟩
    exact ⟨i, j, hi, hj, rfl⟩
  · rintro ⟨i, j, hi, hj, rfl⟩
    exact ⟨i, hi, j, hj, rfl⟩

/-- When the largest row index `N / L + L - 1` stays below `N`. -/
theorem last_read_lt_iff (N L : Nat) (hL : 1 ≤ L) :
    N / L + L - 1 < N ↔ 2 ≤ L ∧ L < N := by
  constructor
  · intro h
    have hL2 : 2 ≤ L := by
      by_contra hcon
      have h1 : L = 1 := by omega
      subst h1
      rw [Nat.div_one] at h
      omega
    refine ⟨hL2, ?_⟩
    by_contra hcon
    rcases Nat.lt_or_eq_of_le (Nat.le_of_not_lt hcon) with hlt | heq
    · rw [Nat.div_eq_of_lt hlt] at h
      omega
    · subst heq
      rw [Nat.div_self (by omega)] at h
      omega
  · rintro ⟨hL2, hN⟩
    have hq : 1 ≤ N / L := Nat.div_pos (le_of_lt hN) (by omega)
    have hmul : N / L * L ≤ N := Nat.div_mul_le_self N L
    rcases Nat.lt_or_eq_of_le hq with hq2 | hq1
    · have hprod : N / L + L ≤ N / L * L := by
        have h2 : 2 ≤ N / L := hq2
        nlinarith [Nat.mul_le_mul h2 hL2, Nat.mul_le_mul_right (L - 2) (show 1 ≤ N / L - 1 by omega)]
      omega
    · omega

/-! ## Claims -/

/-- C2: for a series of length `N >= L` whose values at positions `L..N-1` are
integers `note p` in `[0, numClasses)`, `getCategory` returns a matrix with
`N - L` rows and `numClasses` columns; for every `p` in `[L, N-1]` row `p - L`
holds 1 at column `note p` and 0 in every other column, and every row sums to 1. -/
theorem getCategory_one_hot (series : List ℚ) (L numClasses : Nat) (note : Nat → Nat)
    (hL : L ≤ series.length)
    (hnote : ∀ p, L ≤ p → p < series.length →
      series[p]? = some (note p : ℚ) ∧ note p < numClasses) :
    ∃ trainY, getCategory (Mat.colVec series) numClasses L = .ok trainY ∧
      trainY.n_rows = series.length - L ∧ trainY.n_cols = numClasses ∧ trainY.WF ∧
      (∀ p, L ≤ p → p < series.length → ∀ c, c < numClasses →
        trainY.entry (p - L) c = if c = note p then 1 else 0) ∧
      (∀ r, r < series.length - L →
        ∑ c in Finset.range numClasses, trainY.entry r c = 1) := by
  obtain ⟨trainY, hrun, hR, hC, hlen, hent⟩ := getCategory_spec series L numClasses note hL
    (fun p hlo hhi => ⟨(note p : ℚ), (hnote p hlo hhi).1, truncToInt_natCast _,
      (hnote p hlo hhi).2⟩)
  have hentry : ∀ r, r < series.length - L → ∀ c, c < numClasses →
      trainY.entry r c = if c = note (r + L) then 1 else 0 := by
    intro r hr c hc
    have hrl : r + L < series.length := by omega
    simp [Mat.entry, Mat.index, hR, hent r c hr hc, hrl]
  refine ⟨trainY, hrun, hR, hC, by rw [Mat.WF, hlen, hR, hC], ?_, ?_⟩
  · intro p hlo hhi c hc
    have hp : p - L + L = p := by omega
    rw [hentry (p - L) (by omega) c hc, hp]
  · intro r hr
    have hn : note (r + L) < numClasses := (hnote (r + L) (by omega) (by omega)).2
    rw [Finset.sum_congr rfl (fun c hc => hentry r hr c (Finset.mem_range.mp hc))]
    simp [Finset.sum_ite_eq', hn]

/-- C2, at the series `[0,1,2,3,4,5]` with window length 3 and 6 classes. -/
theorem getCategory_one_hot_witness :
    ∃ trainY, getCategory (Mat.colVec [0, 1, 2, 3, 4, 5]) 6 3 = .ok trainY ∧
      trainY.n_rows = ([0, 1, 2, 3, 4, 5] : List ℚ).length - 3 ∧ trainY.n_cols = 6 ∧
      trainY.WF ∧
      (∀ p, 3 ≤ p → p < ([0, 1, 2, 3, 4, 5] : List ℚ).length → ∀ c, c < 6 →
        trainY.entry (p - 3) c = if c = p then 1 else 0) ∧
      (∀ r, r < ([0, 1, 2, 3, 4, 5] : List ℚ).length - 3 →
        ∑ c in Finset.range 6, trainY.entry r c = 1) :=
  getCategory_one_hot [0, 1, 2, 3, 4, 5] 3 6 (fun p => p) (by decide) (by
    intro p hlo hhi
    have hp : p = 3 ∨ p = 4 ∨ p = 5 := by
      simp only [List.length_cons, List.length_nil] at hhi
      omega
    rcases hp with h | h | h <;> subst h <;> simp)

/-- C3, as the program behaves: `getCategory` has no range check and never
stops with a data-format error.  It converts each `series[p]`, `L <= p < N`, to
an `int` by truncation and uses the result as the column: whenever every
converted index `note p` lies in `[0, numClasses)`, which a negative value such
as `-1/2` does (it converts to 0), the `N - L` by `numClasses` target matrix is
returned, with 1 at row `p - L`, column `note p`, and 0 in the other columns
`0 .. numClasses - 1`.  Nothing is stated for a converted index outside
`[0, numClasses)`. -/
theorem getCategory_no_range_check (series : List ℚ) (L numClasses : Nat)
    (hL : L ≤ series.length) :
    getCategory (Mat.colVec series) numClasses L ≠ .error .dataFormatError ∧
      ∀ note : Nat → Nat,
        (∀ p, L ≤ p → p < series.length →
          ∃ v, series[p]? = some v ∧ truncToInt v = (note p : Int) ∧ note p < numClasses) →
        ∃ trainY, getCategory (Mat.colVec series) numClasses L = .ok trainY ∧
          trainY.n_rows = series.length - L ∧ trainY.n_cols = numClasses ∧ trainY.WF ∧
          ∀ p, L ≤ p → p < series.length → ∀ c, c < numClasses →
            trainY.entry (p - L) c = if c = note p then 1 else 0 := by
  constructor
  · intro h
    have hstep : ∀ (m : Mat) (i : Nat) (e : Fault),
        getCategoryStep (Mat.colVec series) L m i = .error e → e = .undefinedBehaviour := by
      intro m i e he
      rcases getCategoryStep_cases (Mat.colVec series) L m i with h1 | ⟨w, _, _, _, h1⟩
      · rw [h1] at he; cases he; rfl
      · rw [h1] at he; cases he
    have := foldlM_error_eq _ .undefinedBehaviour hstep _ _ _ h
    cases this
  · intro note hnote
    obtain ⟨trainY, hrun, hR, hC, hlen, hent⟩ :=
      getCategory_spec series L numClasses note hL hnote
    refine ⟨trainY, hrun, hR, hC, by rw [Mat.WF, hlen, hR, hC], ?_⟩
    intro p hlo hhi c hc
    have hr : p - L < series.length - L := by omega
    have hp : p - L + L = p := by omega
    simp [Mat.entry, Mat.index, hR, hent (p - L) c hr hc, hp, hhi]

/-- C3 amended, at the series `[0,0,0,-1/2]` with window length 3 and 3
classes: the negative target value converts to column 0 and is accepted. -/
theorem getCategory_no_range_check_witness :
    getCategory (Mat.colVec [0, 0, 0, -1 / 2]) 3 3 ≠ .error .dataFormatError ∧
      ∃ trainY, getCategory (Mat.colVec [0, 0, 0, -1 / 2]) 3 3 = .ok trainY ∧
        trainY.n_rows = ([0, 0, 0, -1 / 2] : List ℚ).length - 3 ∧ trainY.n_cols = 3 ∧
        trainY.WF ∧
        ∀ p, 3 ≤ p → p < ([0, 0, 0, -1 / 2] : List ℚ).length → ∀ c, c < 3 →
          trainY.entry (p - 3) c = if c = 0 then 1 else 0 :=
  ⟨(getCategory_no_range_check [0, 0, 0, -1 / 2] 3 3 (by decide)).1,
    (getCategory_no_range_check [0, 0, 0, -1 / 2] 3 3 (by decide)).2 (fun _ => 0) (by
      intro p hlo hhi
      have hp : p = 3 := by
        simp only [List.length_cons, List.length_nil] at hhi
        omega
      subst hp
      exact ⟨-1 / 2, rfl, by decide!, by decide⟩)⟩

/-- C3 as stated fails twice.  For the series `[0,0,0,-1/2]`, window length 3
and 3 classes the target value is negative, yet `getCategory` returns the
target matrix `[1,0,0]` and no error.  For the series `[0,0,0,3]` the target
note equals the class count, and the outcome is not a data-format error. -/
theorem getCategory_accepts_negative_value :
    (-1 / 2 : ℚ) < 0 ∧
      getCategory (Mat.colVec [0, 0, 0, -1 / 2]) 3 3 = .ok ⟨1, 3, [1, 0, 0]⟩ ∧
      truncToInt 3 = 3 ∧
      getCategory (Mat.colVec [0, 0, 0, 3]) 3 3 ≠ .error .dataFormatError := by
  decide!

/-- C8: for a held-out series of length `M`, a window length `L >= 1` and a
predict capability whose output tensor (well formed, with at least feature 0)
has as many sequences and time steps as its input, `predictClass` runs the
prediction on the tensor that holds point `i` of the series at time step 0 of
sequence `i` (zero elsewhere) and produces a single row of exactly `M` values,
in which value `i` is the predicted tensor's entry at (feature 0, sequence `i`,
time step `L - 1`): the row follows the order of the held-out series. -/
theorem predictClass_row (predict : Cube → Cube) (heldOut : List ℚ) (L : Nat) (hL : 1 ≤ L)
    (hpred : ∀ test : Cube, test.WF → test.n_rows = 1 →
      (predict test).WF ∧ 1 ≤ (predict test).n_rows ∧
        (predict test).n_cols = test.n_cols ∧ (predict test).n_slices = test.n_slices) :
    buildTest (Mat.rowVec heldOut) L = .ok (inferenceTensor heldOut L) ∧
      (inferenceTensor heldOut L).n_cols = heldOut.length ∧
      (∀ i, i < heldOut.length → (inferenceTensor heldOut L).mem[i]? = heldOut[i]?) ∧
      (∀ i, i < heldOut.length → (inferenceTensor heldOut L).entry 0 i 0 = heldOut.getD i 0) ∧
      ∃ testPred, predictClass predict (Mat.rowVec heldOut) L = .ok testPred ∧
        testPred.n_rows = 1 ∧ testPred.n_cols = heldOut.length ∧ testPred.WF ∧
        ∀ i, i < heldOut.length →
          testPred.entry 0 i = (predict (inferenceTensor heldOut L)).entry 0 i (L - 1) := by
  have hbuild := buildTest_eq heldOut L hL
  have hwf : (inferenceTensor heldOut L).WF := by
    obtain ⟨r, rfl⟩ : ∃ r, L = r + 1 := ⟨L - 1, by omega⟩
    simp only [Cube.WF, inferenceTensor, List.length_append, List.length_replicate,
      Nat.add_sub_cancel]
    ring
  have hr : (inferenceTensor heldOut L).n_rows = 1 := rfl
  have hc : (inferenceTensor heldOut L).n_cols = heldOut.length := rfl
  have hs : (inferenceTensor heldOut L).n_slices = L := rfl
  have hmem : ∀ i, i < heldOut.length →
      (inferenceTensor heldOut L).mem[i]? = heldOut[i]? := by
    intro i hi
    simp [inferenceTensor, List.getElem?_append_left hi]
  obtain ⟨owf, orows, ocols, oslices⟩ := hpred _ hwf hr
  obtain ⟨tp, hrun, h1, h2, h3, h4⟩ :=
    exportLoop_spec (predict (inferenceTensor heldOut L)) owf orows
      (by rw [oslices, hs]; exact hL)
  refine ⟨hbuild, hc, hmem, ?_, tp, ?_, h1, ?_, ?_, ?_⟩
  · intro i hi
    have h := hmem i hi
    have hidx : (inferenceTensor heldOut L).index 0 i 0 = i := by
      simp [Cube.index, inferenceTensor]
    simp [Cube.entry, hidx, h, List.getElem?_eq_getElem hi, List.getD_eq_getElem _ _ hi]
  · unfold predictClass
    rw [hbuild]
    exact hrun
  · rw [h2, ocols, hc]
  · rw [Mat.WF, h3, h1, h2, Nat.one_mul]
  · intro i hi
    have hi' : i < (predict (inferenceTensor heldOut L)).n_cols := by
      rw [ocols, hc]; exact hi
    have h := h4 i hi'
    rw [oslices, hs] at h
    simp [Mat.entry, Mat.index, h1, h]

/-- C8, at the held-out series `[4,5,6]`, window length 2 and a predict
capability that moves each time step to the next one (the storage rotated by
one slice): the exported row is `[4,5,6]`, the series in its order. -/
theorem predictClass_row_witness :
    (buildTest (Mat.rowVec [4, 5, 6]) 2 = .ok (inferenceTensor [4, 5, 6] 2) ∧
      (inferenceTensor [4, 5, 6] 2).n_cols = ([4, 5, 6] : List ℚ).length ∧
      (∀ i, i < ([4, 5, 6] : List ℚ).length →
        (inferenceTensor [4, 5, 6] 2).mem[i]? = ([4, 5, 6] : List ℚ)[i]?) ∧
      (∀ i, i < ([4, 5, 6] : List ℚ).length →
        (inferenceTensor [4, 5, 6] 2).entry 0 i 0 = ([4, 5, 6] : List ℚ).getD i 0) ∧
      ∃ testPred,
        predictClass (fun q => ⟨q.n_rows, q.n_cols, q.n_slices, q.mem.rotate q.n_cols⟩)
          (Mat.rowVec [4, 5, 6]) 2 = .ok testPred ∧
        testPred.n_rows = 1 ∧ testPred.n_cols = ([4, 5, 6] : List ℚ).length ∧ testPred.WF ∧
        ∀ i, i < ([4, 5, 6] : List ℚ).length →
          testPred.entry 0 i =
            ((fun q : Cube => (⟨q.n_rows, q.n_cols, q.n_slices, q.mem.rotate q.n_cols⟩ : Cube))
              (inferenceTensor [4, 5, 6] 2)).entry 0 i (2 - 1)) ∧
    inferenceTensor [4, 5, 6] 2 = ⟨1, 3, 2, [4, 5, 6, 0, 0, 0]⟩ ∧
    predictClass (fun q => ⟨q.n_rows, q.n_cols, q.n_slices, q.mem.rotate q.n_cols⟩)
      (Mat.rowVec [4, 5, 6]) 2 = .ok ⟨1, 3, [4, 5, 6]⟩ :=
  ⟨predictClass_row (fun q => ⟨q.n_rows, q.n_cols, q.n_slices, q.mem.rotate q.n_cols⟩)
      [4, 5, 6] 2 (by decide)
      (fun test hwf hr =>
        ⟨by simpa [Cube.WF] using hwf, by simp [hr], rfl, rfl⟩),
    by decide, by decide⟩

/-- C10: for a series length `N` and a window length `L >= 1`, with
`num_sequences = N / L + 1`, all row indices `i + j` that `getTrainX` reads are
below `N` if and only if `L >= 2` and `N > L`; the largest index read is
`N / L + L - 1`, and it reaches or exceeds `N` exactly when `N <= L` or `L = 1`. -/
theorem getTrainX_reads_in_range_iff (N L : Nat) (hL : 1 ≤ L) :
    ((∀ a, a ∈ getTrainXAccesses N L → a.src < N) ↔ (2 ≤ L ∧ L < N)) ∧
      (∀ a, a ∈ getTrainXAccesses N L → a.src ≤ N / L + L - 1) ∧
      (∃ a, a ∈ getTrainXAccesses N L ∧ a.src = N / L + L - 1) ∧
      (N ≤ N / L + L - 1 ↔ (N ≤ L ∨ L = 1)) := by
  have hmax : ∀ a, a ∈ getTrainXAccesses N L → a.src ≤ N / L + L - 1 := by
    intro a ha
    obtain ⟨i, j, hi, hj, rfl⟩ := (mem_getTrainXAccesses N L a).mp ha
    show i + j ≤ N / L + L - 1
    omega
  have hlast : (⟨1, N / L, L - 1, N / L + (L - 1)⟩ : Access) ∈ getTrainXAccesses N L :=
    (mem_getTrainXAccesses N L _).mpr ⟨N / L, L - 1, by omega, by omega, rfl⟩
  have hiff := last_read_lt_iff N L hL
  refine ⟨?_, hmax, ⟨_, hlast, ?_⟩, ?_⟩
  · constructor
    · intro hall
      have h := hall _ hlast
      apply hiff.mp
      show N / L + L - 1 < N
      have : N / L + (L - 1) < N := h
      omega
    · intro hcond a ha
      have h1 := hmax a ha
      have h2 := hiff.mpr hcond
      omega
  · exact (Nat.add_sub_assoc hL (N / L)).symm
  · constructor
    · intro h
      by_contra hcon
      have : 2 ≤ L ∧ L < N := by omega
      have := hiff.mpr this
      omega
    · intro h
      by_contra hcon
      have hlt : N / L + L - 1 < N := by omega
      have := hiff.mp hlt
      omega

/-- C10, at the series length 6 and the window length 3 of `main`. -/
theorem getTrainX_reads_in_range_iff_witness :
    ((∀ a, a ∈ getTrainXAccesses 6 3 → a.src < 6) ↔ (2 ≤ 3 ∧ 3 < 6)) ∧
      (∀ a, a ∈ getTrainXAccesses 6 3 → a.src ≤ 6 / 3 + 3 - 1) ∧
      (∃ a, a ∈ getTrainXAccesses 6 3 ∧ a.src = 6 / 3 + 3 - 1) ∧
      (6 ≤ 6 / 3 + 3 - 1 ↔ (6 ≤ 3 ∨ 3 = 1)) :=
  getTrainX_reads_in_range_iff 6 3 (by decide)

/-- C1 fails on the program: for the series `[0,1,2,3,4,5]` and window length
3 `getTrainX` sizes the tensor for `6 / 3 + 1 = 3` windows, not `6 - 3 + 1 = 4`:
the window `[3,4,5]` is never built.  The three windows it copies are written
at row index 1 of a tensor with the single row 0, and the last of these writes
is outside the storage, so the run has no defined result. -/
theorem getTrainX_three_windows :
    num_sequences 6 3 = 3 ∧
      getTrainXAccesses 6 3 =
        [⟨1, 0, 0, 0⟩, ⟨1, 0, 1, 1⟩, ⟨1, 0, 2, 2⟩,
         ⟨1, 1, 0, 1⟩, ⟨1, 1, 1, 2⟩, ⟨1, 1, 2, 3⟩,
         ⟨1, 2, 0, 2⟩, ⟨1, 2, 1, 3⟩, ⟨1, 2, 2, 4⟩] ∧
      getTrainX (Mat.colVec [0, 1, 2, 3, 4, 5]) 3 = .error .undefinedBehaviour := by
  decide

/-- C4 fails on the program: for the series `[5,0,0,5]` (window length 3)
`main` derives `size_notes = 5`, so the target matrix has the columns `0..4`;
the note 5 at position 3 is written at column 5, outside the matrix. -/
theorem mainSizeNotes_excludes_max :
    mainSizeNotes (Mat.colVec [5, 0, 0, 5]) = .ok 5 ∧
      (Mat.colVec [5, 0, 0, 5]).readAt 3 0 = .ok 5 ∧
      (Mat.create (targetRows 4 3) 5).n_cols = 5 ∧
      (Mat.create (targetRows 4 3) 5).writeAt (3 - 3) 5 1 = .error .undefinedBehaviour ∧
      getCategory (Mat.colVec [5, 0, 0, 5]) 5 3 = .error .undefinedBehaviour := by
  decide

/-- C5 fails on the program: for the series `[0,1,2]` and window length 3
`getTrainX` runs two windows, and window 1 at time step 2 reads row 3, past the
end of the three-note series. -/
theorem getTrainX_reads_past_end :
    (Mat.colVec [0, 1, 2]).n_rows = 3 ∧
      (⟨1, 1, 2, 3⟩ : Access) ∈ getTrainXAccesses 3 3 ∧
      (Mat.colVec [0, 1, 2]).readAt 3 0 = .error .undefinedBehaviour := by
  decide

/-- C7 fails on the program: the loop of `trainModel` is `i <= CYCLES`.  With
a network that counts its `Train` calls, the compiled driver (`CYCLES = 50`)
fits 51 times and prints 51 lines, and with a cycle count of 0 it still fits
once and prints one line. -/
theorem trainModel_one_cycle_more :
    CYCLES = 50 ∧
      (trainModel (fun (m : Nat) _ _ (o : Optimizer Unit) => (m + 1, o)) (fun _ x => x) () 0
          ⟨1, 1, 1, [1]⟩ ⟨1, 1, [1]⟩).toOption.map (fun st => (st.model, st.log.length))
        = some (51, 51) ∧
      (trainModelWith 0 (fun (m : Nat) _ _ (o : Optimizer Unit) => (m + 1, o)) (fun _ x => x) () 0
          ⟨1, 1, 1, [1]⟩ ⟨1, 1, [1]⟩).toOption.map (fun st => (st.model, st.log))
        = some (1, [(0, some 100)]) := by
  decide!

/-- C9 fails on the program: for the series `[0,1,2,3,4,5]` and window length
3 the tensor has the single row (feature) 0, and every write of `getTrainX`
names row 1; the last one, `(1, 2, 2)`, is outside the storage. -/
theorem getTrainX_writes_row_one :
    (Cube.create 1 (num_sequences 6 3) 3).n_rows = 1 ∧
      (getTrainXAccesses 6 3).all (fun a => decide (a.row = 1)) = true ∧
      (Cube.create 1 (num_sequences 6 3) 3).writeAt 1 2 2 4 = .error .undefinedBehaviour := by
  decide

end Prodigy
